import Mathlib

set_option maxHeartbeats 1000000

/-!
Shallow embedding of the Nominatim command-line layer (`nominatim/cli.py`)
and of the indexing engine it drives.  The CLI layer is translated directly
from the source; the indexing engine (`Indexer`) is only called, not
implemented, in the visible source, so its behaviour is modelled from the
specification where a claim depends on it.
-/

/-- The two indexing phases: administrative-boundary records and regular
(non-boundary) records. -/
inductive Phase where
  | boundary
  | regular
deriving DecidableEq, Repr

/-- Python truthiness fallback `a or b` for an optional integer `a`:
`None` and `0` are falsy, every other integer (negative included) is truthy. -/
def pyOrInt (a : Option Int) (b : Int) : Int :=
  match a with
  | none => b
  | some n => if n = 0 then b else n

/-- Python truthiness fallback `a or b` where both operands are optional
naturals (`len(...)` results or `os.cpu_count()`). -/
def pyOrNatOpt (a b : Option Nat) : Option Nat :=
  match a with
  | none => b
  | some n => if n = 0 then b else some n

/-- From `cli.py`: `_num_system_cpus` returns `len(os.sched_getaffinity(0))`
when available (argument `affinity`; `none` models the `NotImplementedError`
path) and otherwise falls back to `os.cpu_count()` (which may itself be
`None`). -/
def num_system_cpus (affinity cpu_count : Option Nat) : Option Nat :=
  pyOrNatOpt affinity cpu_count

/-- From `cli.py` line 324: the worker count handed to the `Indexer` is
`args.threads or _num_system_cpus() or 1`. -/
def resolvedWorkers (threads : Option Int) (affinity cpu_count : Option Nat) : Int :=
  pyOrInt threads (pyOrInt ((num_system_cpus affinity cpu_count).map Int.ofNat) 1)

/-- The arguments of the `index` subcommand relevant to `UpdateIndex.run`. -/
structure IndexArgs where
  boundaries_only : Bool
  no_boundaries : Bool
  minrank : Int
  maxrank : Int
  threads : Option Int
deriving DecidableEq, Repr

/-- The externally observable calls `UpdateIndex.run` makes on the indexing
facade, in order. -/
inductive Effect where
  | constructIndexer (workers : Int)
  | index_boundaries (minrank maxrank : Int)
  | index_by_rank (minrank maxrank : Int)
  | update_status_table
deriving DecidableEq, Repr

/-- From `cli.py` lines 321-334 (`UpdateIndex.run`): build the `Indexer`,
run the boundary pass unless `--no-boundaries`, run the regular pass unless
`--boundaries-only`, refresh the status table when both passes ran, and
return 0.  The result is the ordered list of facade calls plus the exit
code. -/
def UpdateIndex.run (args : IndexArgs) (affinity cpu_count : Option Nat) :
    List Effect × Int :=
  ( Effect.constructIndexer (resolvedWorkers args.threads affinity cpu_count)
      :: ((if !args.no_boundaries then
            [Effect.index_boundaries args.minrank args.maxrank] else [])
        ++ (if !args.boundaries_only then
            [Effect.index_by_rank args.minrank args.maxrank] else [])
        ++ (if !args.no_boundaries && !args.boundaries_only then
            [Effect.update_status_table] else [])),
    0 )

/-- The result of `argparse` as far as `CommandlineParser.run` inspects it:
the chosen subcommand, if any.  `C` abstracts the set of subcommands. -/
structure ParsedArgs (C : Type) where
  subcommand : Option C

/-- Observable actions of `CommandlineParser.run`. -/
inductive CliEffect (C : Type) where
  | printHelp
  | loadConfig
  | execSubcommand (c : C)
deriving DecidableEq, Repr

/-- From `cli.py` lines 67-88 (`CommandlineParser.run`): with no subcommand,
print the help text and return 1; otherwise load the configuration and run
the chosen subcommand, returning its result. -/
def CommandlineParser.run {C : Type} (args : ParsedArgs C) (execCmd : C → Int) :
    List (CliEffect C) × Int :=
  match args.subcommand with
  | none => ([CliEffect.printHelp], 1)
  | some c => ([CliEffect.loadConfig, CliEffect.execSubcommand c], execCmd c)

/-- The inclusive ascending rank range `[lo, hi]` (empty when `hi < lo`). -/
def rankList (lo hi : Int) : List Int :=
  (List.range (hi - lo + 1).toNat).map (fun (i : Nat) => lo + (i : Int))

/-- Modelled from the spec: `indexBoundaries(rankMin, rankMax)` runs the
boundary phase only, iterating ranks ascending over the inclusive range;
each element is one fully drained `(phase, rank)` unit of work. -/
def index_boundaries_units (lo hi : Int) : List (Phase × Int) :=
  (rankList lo hi).map (fun r => (Phase.boundary, r))

/-- Modelled from the spec: `indexByRank(rankMin, rankMax)` runs the regular
(non-boundary) phase only, iterating ranks ascending over the inclusive
range. -/
def index_by_rank_units (lo hi : Int) : List (Phase × Int) :=
  (rankList lo hi).map (fun r => (Phase.regular, r))

/-- The `(phase, rank)` units of work performed by one facade call. -/
def effectUnits : Effect → List (Phase × Int)
  | Effect.index_boundaries lo hi => index_boundaries_units lo hi
  | Effect.index_by_rank lo hi => index_by_rank_units lo hi
  | _ => []

/-- The full ordered trace of `(phase, rank)` units of one `index`
invocation. -/
def invocationUnits (args : IndexArgs) (affinity cpu_count : Option Nat) :
    List (Phase × Int) :=
  ((UpdateIndex.run args affinity cpu_count).1.map effectUnits).flatten

/-- Both indexing phases are enabled for this invocation. -/
def bothPhases (args : IndexArgs) : Prop :=
  args.no_boundaries = false ∧ args.boundaries_only = false

/-- The per-rank interleaved order asserted by the claim: a unit at a lower
rank is never preceded by a unit at a higher rank, and within one rank the
boundary unit comes before the regular one. -/
def unitLE (u v : Phase × Int) : Prop :=
  u.2 < v.2 ∨ (u.2 = v.2 ∧ (u.1 = Phase.boundary ∨ v.1 = Phase.regular))

instance : DecidableRel unitLE := fun u v => by
  unfold unitLE; infer_instance

/-- Modelled from the spec: the Claim Queue's atomic claim step hands the
next bounded batch of not-yet-claimed record identifiers to the requesting
worker and removes them from the unclaimed pool. -/
def claimBatch (n : Nat) (unclaimed : List Nat) : List Nat × List Nat :=
  (unclaimed.take n, unclaimed.drop n)

/-- Modelled from the spec: the batches issued over one scheduler pass.
Because every claim is a single mutually-exclusive step, any concurrent
execution serialises into a sequence of claim sizes `ns` (one entry per
worker request, in commit order); `issuedBatches ns unclaimed` is the list
of batches handed out under that serialisation. -/
def issuedBatches : List Nat → List Nat → List (List Nat)
  | [], _ => []
  | n :: ns, unclaimed =>
      (claimBatch n unclaimed).1 :: issuedBatches ns (claimBatch n unclaimed).2

/-- Modelled from the spec: the Rank Scheduler's running state — the Status
Tracker's durable marker (the last fully completed unit, if any) and the log
of units fully processed so far in this run. -/
structure SchedState (U : Type) where
  marker : Option U
  processed : List U
deriving DecidableEq, Repr

/-- Modelled from the spec: fully drain one `(phase, rank)` unit (every
worker observes queue exhaustion and commits), then write the Status
Tracker — the marker is advanced only after the unit fully succeeded. -/
def completeUnit {U : Type} (s : SchedState U) (u : U) : SchedState U :=
  ⟨some u, s.processed ++ [u]⟩

/-- Modelled from the spec: run the scheduler over a plan of pending units,
in order. -/
def runUnits {U : Type} (pending : List U) (s : SchedState U) : SchedState U :=
  pending.foldl completeUnit s

/-- Modelled from the spec: a run that fails or is interrupted after fully
completing `k` units of its plan; a partially drained unit never advances
the marker. -/
def runInterrupted {U : Type} (pending : List U) (k : Nat) (s : SchedState U) :
    SchedState U :=
  runUnits (pending.take k) s

/-- Modelled from the spec: on restart the scheduler consults
`lastCompleted()` and resumes exactly at the next unfinished unit — the part
of the plan strictly after the marker (the whole plan when no marker is
stored). -/
def unitsAfterMarker {U : Type} [DecidableEq U] (plan : List U) :
    Option U → List U
  | none => plan
  | some u => ((plan.dropWhile (fun x => x != u)).drop 1)

/-- Modelled from the spec: scheduler progress order on `(phase, rank)`
markers — within a rank the boundary phase precedes the regular phase. -/
def markerValue : Phase × Int → Int
  | (Phase.boundary, r) => 2 * r
  | (Phase.regular, r) => 2 * r + 1

/-- Modelled from the spec: `recordCompletion(phase, rank)` — durable and
idempotent; writing the same or a lower value than already stored is a
no-op. -/
def recordCompletion (s : Option (Phase × Int)) (u : Phase × Int) :
    Option (Phase × Int) :=
  match s with
  | none => some u
  | some v => if markerValue u ≤ markerValue v then some v else some u

/-- Modelled from the spec: `lastCompleted()` reads the stored marker. -/
def lastCompleted (s : Option (Phase × Int)) : Option (Phase × Int) := s

/-- Progress order on stored markers: an empty marker precedes everything. -/
def markerLE : Option (Phase × Int) → Option (Phase × Int) → Prop
  | none, _ => True
  | some _, none => False
  | some u, some v => markerValue u ≤ markerValue v

/-- A place record as the engine sees it: stable identifier, search rank,
boundary flag, and whether it has been indexed. -/
structure PlaceRecord where
  id : Nat
  rank_search : Int
  is_boundary : Bool
  indexed : Bool
deriving DecidableEq, Repr

/-- A record belongs to the regular phase of a rank-range pass. -/
def matchesRegular (lo hi : Int) (r : PlaceRecord) : Bool :=
  !r.is_boundary && decide (lo ≤ r.rank_search) && decide (r.rank_search ≤ hi)

/-- Modelled from the spec: the record identifiers `indexByRank(lo, hi)`
claims from a database state — the not-yet-indexed regular records with rank
in range. -/
def Engine.claims (lo hi : Int) (db : List PlaceRecord) : List Nat :=
  (db.filter (fun r => matchesRegular lo hi r && !r.indexed)).map (fun r => r.id)

/-- Modelled from the spec: the effect of one regular-phase pass on a single
record — a claimed record is marked indexed, every other record is left
unchanged. -/
def indexStep (lo hi : Int) (r : PlaceRecord) : PlaceRecord :=
  if matchesRegular lo hi r && !r.indexed then { r with indexed := true } else r

/-- Modelled from the spec: the observable database state after
`indexByRank(lo, hi)` — every claimed record is marked indexed, nothing else
changes. -/
def Engine.index_by_rank (lo hi : Int) (db : List PlaceRecord) :
    List PlaceRecord :=
  db.map (indexStep lo hi)

/-! ### Helper lemmas -/

theorem take_add_split {α : Type} :
    ∀ (l : List α) (m n : Nat), l.take (m + n) = l.take m ++ (l.drop m).take n
  | _, 0, _ => by simp
  | [], _ + 1, _ => by simp
  | a :: l, m + 1, n => by
      simp only [Nat.succ_add, List.take_succ_cons, List.drop_succ_cons,
        List.cons_append, List.cons.injEq, true_and]
      exact take_add_split l m n

theorem units_pairwise_lt (p : Phase) (lo hi : Int) :
    ((rankList lo hi).map (fun r => (p, r))).Pairwise
      (fun u v : Phase × Int => u.2 < v.2) := by
  rw [List.pairwise_map]
  unfold rankList
  rw [List.pairwise_map]
  refine List.Pairwise.imp ?_ (List.pairwise_lt_range _)
  intro h
  dsimp only
  omega

theorem issuedBatches_flatten (ns : List Nat) (l : List Nat) :
    (issuedBatches ns l).flatten = l.take ns.sum := by
  induction ns generalizing l with
  | nil => simp [issuedBatches]
  | cons n ns ih =>
      simp only [issuedBatches, claimBatch, List.flatten_cons, ih, List.sum_cons]
      rw [take_add_split]

theorem runUnits_processed {U : Type} (l : List U) (s : SchedState U) :
    (runUnits l s).processed = s.processed ++ l := by
  induction l generalizing s with
  | nil => simp [runUnits]
  | cons a t ih =>
      show (runUnits t (completeUnit s a)).processed = s.processed ++ a :: t
      rw [ih]
      simp [completeUnit]

theorem runUnits_marker {U : Type} (l : List U) (s : SchedState U) :
    (runUnits l s).marker
      = match l.getLast? with
        | some u => some u
        | none => s.marker := by
  induction l generalizing s with
  | nil => simp [runUnits]
  | cons a t ih =>
      show (runUnits t (completeUnit s a)).marker = _
      rw [ih]
      cases t with
      | nil => simp [completeUnit]
      | cons b t' =>
          rw [List.getLast?_cons_cons]
          cases h : (b :: t').getLast? with
          | none =>
              have : (b :: t') = [] := List.getLast?_eq_none_iff.mp h
              simp at this
          | some u => rfl

theorem unitsAfterMarker_take {U : Type} [DecidableEq U] :
    ∀ (plan : List U) (k : Nat), plan.Nodup →
      unitsAfterMarker plan ((plan.take k).getLast?) = plan.drop k := by
  intro plan
  induction plan with
  | nil => intro k _; simp [unitsAfterMarker]
  | cons a t ih =>
      intro k hnd
      cases k with
      | zero => simp [unitsAfterMarker]
      | succ j =>
          rw [List.take_succ_cons]
          rcases htj : t.take j with _ | ⟨u, rest⟩
          · have ht : j = 0 ∨ t = [] := List.take_eq_nil_iff.mp htj
            have hdrop : t.drop j = t := by
              rcases ht with h0 | hnil
              · rw [h0]; rfl
              · rw [hnil]; simp
            simp only [List.getLast?_singleton, List.drop_succ_cons, hdrop]
            show ((a :: t).dropWhile (fun x => x != a)).drop 1 = t
            have : ((a : U) != a) = false := by simp
            rw [List.dropWhile_cons, this]
            simp
          · have hne : t.take j ≠ [] := by rw [htj]; simp
            obtain ⟨w, hw⟩ : ∃ w, (t.take j).getLast? = some w := by
              rcases h : (t.take j).getLast? with _ | w
              · rw [List.getLast?_eq_none_iff] at h; exact absurd h hne
              · exact ⟨w, rfl⟩
            have hwt : w ∈ t :=
              List.take_subset _ _ (List.mem_of_getLast?_eq_some hw)
            have haw : a ≠ w := by
              intro h
              exact (List.nodup_cons.mp hnd).1 (h ▸ hwt)
            have hlast : (a :: t.take j).getLast? = some w := by
              rw [htj] at hw ⊢
              rw [List.getLast?_cons_cons]
              exact hw
            rw [htj] at hlast
            rw [hlast]
            show ((a :: t).dropWhile (fun x => x != w)).drop 1 = (a :: t).drop (j + 1)
            have hba : ((a : U) != w) = true := by simp [haw]
            rw [List.dropWhile_cons, hba, List.drop_succ_cons]
            have := ih j (List.nodup_cons.mp hnd).2
            rw [hw] at this
            exact this

theorem markerLE_refl (s : Option (Phase × Int)) : markerLE s s := by
  cases s <;> simp [markerLE]

theorem markerLE_trans {a b c : Option (Phase × Int)}
    (h1 : markerLE a b) (h2 : markerLE b c) : markerLE a c := by
  cases a with
  | none => cases c with
    | none => trivial
    | some w => trivial
  | some u =>
      cases b with
      | none => exact h1.elim
      | some v =>
          cases c with
          | none => exact h2.elim
          | some w =>
              show markerValue u ≤ markerValue w
              have h1' : markerValue u ≤ markerValue v := h1
              have h2' : markerValue v ≤ markerValue w := h2
              omega

theorem markerLE_recordCompletion (s : Option (Phase × Int)) (u : Phase × Int) :
    markerLE s (recordCompletion s u) := by
  cases s with
  | none => simp [markerLE, recordCompletion]
  | some v =>
      unfold recordCompletion
      by_cases h : markerValue u ≤ markerValue v
      · simp [h, markerLE]
      · simp only [h, if_false]
        show markerValue v ≤ markerValue u
        omega

theorem one_le_pyOrInt_natOpt (o : Option Nat) :
    1 ≤ pyOrInt (o.map Int.ofNat) 1 := by
  rcases o with _ | n
  · simp [pyOrInt]
  · simp only [Option.map_some', pyOrInt]
    split
    · omega
    · rename_i h
      rw [Int.ofNat_eq_coe] at h ⊢
      omega

/-! ### Claim theorems -/

/-- C4: `updateStatusTable` is invoked exactly when a full combined pass ran,
i.e. when neither `--no-boundaries` nor `--boundaries-only` excluded a phase;
it is not invoked when either phase was excluded. -/
theorem c4_update_status_iff_full_pass (args : IndexArgs)
    (affinity cpu_count : Option Nat) :
    Effect.update_status_table ∈ (UpdateIndex.run args affinity cpu_count).1
      ↔ args.no_boundaries = false ∧ args.boundaries_only = false := by
  obtain ⟨bo, nb, mn, mx, th⟩ := args
  cases bo <;> cases nb <;> simp [UpdateIndex.run]

/-- C9: with both the boundaries-only and the no-boundaries filters set, the
command still constructs the `Indexer` but executes no indexing phase, does
not refresh the status table, and returns exit code 0. -/
theorem c9_both_filters_construct_only (minrank maxrank : Int)
    (threads : Option Int) (affinity cpu_count : Option Nat) :
    UpdateIndex.run ⟨true, true, minrank, maxrank, threads⟩ affinity cpu_count
      = ([Effect.constructIndexer (resolvedWorkers threads affinity cpu_count)], 0) :=
  rfl

/-- C10: with no subcommand, the command-line parser prints the help text and
returns exit code 1 without loading any configuration or executing any
command. -/
theorem c10_no_subcommand_help_exit_one {C : Type} (args : ParsedArgs C)
    (execCmd : C → Int) (h : args.subcommand = none) :
    CommandlineParser.run args execCmd = ([CliEffect.printHelp], 1)
    ∧ CliEffect.loadConfig ∉ (CommandlineParser.run args execCmd).1
    ∧ ∀ c : C, CliEffect.execSubcommand c ∉ (CommandlineParser.run args execCmd).1 := by
  have hrun : CommandlineParser.run args execCmd = ([CliEffect.printHelp], 1) := by
    unfold CommandlineParser.run
    rw [h]
  refine ⟨hrun, ?_, ?_⟩
  · rw [hrun]; simp
  · intro c; rw [hrun]; simp

/-- Witness for C10 at a concrete parse result with no subcommand. -/
theorem c10_no_subcommand_help_exit_one_witness :
    (ParsedArgs.mk (C := Unit) none).subcommand = none
    ∧ CommandlineParser.run (ParsedArgs.mk (C := Unit) none) (fun _ => 0)
        = ([CliEffect.printHelp], 1) :=
  ⟨rfl, (c10_no_subcommand_help_exit_one (ParsedArgs.mk (C := Unit) none)
    (fun _ => 0) rfl).1⟩

/-- C2 counterexample: a caller-supplied negative worker count is passed
through unchanged by `args.threads or _num_system_cpus() or 1` (negative
integers are truthy in Python), so it neither resolves to the detected CPU
count (4 here) nor is positive — refuting the claim that a non-positive
supplied value resolves to the CPU count. -/
theorem c2_counterexample :
    resolvedWorkers (some (-2)) (some 4) (some 8) = -2
    ∧ resolvedWorkers (some (-2)) (some 4) (some 8) ≠ 4
    ∧ ¬ (1 ≤ resolvedWorkers (some (-2)) (some 4) (some 8)) := by
  decide

/-- C2 amended: the worker count is the caller-supplied value whenever that
value is a nonzero integer (negative values included); only when it is
absent or zero does it resolve to the available CPU count (the affinity-set
size when detection succeeds, else `os.cpu_count()`), with a floor of 1 when
detection fails, and in the absent-or-zero case the result is at least 1. -/
theorem c2_amended_worker_resolution (threads : Option Int)
    (aff cpu : Option Nat) :
    (∀ t : Int, threads = some t → t ≠ 0 →
        resolvedWorkers threads aff cpu = t)
    ∧ ((threads = none ∨ threads = some 0) → ∀ a : Nat, aff = some a → 0 < a →
        resolvedWorkers threads aff cpu = Int.ofNat a)
    ∧ ((threads = none ∨ threads = some 0) → (aff = none ∨ aff = some 0) →
        ∀ c : Nat, cpu = some c → 0 < c →
        resolvedWorkers threads aff cpu = Int.ofNat c)
    ∧ ((threads = none ∨ threads = some 0) → (aff = none ∨ aff = some 0) →
        (cpu = none ∨ cpu = some 0) →
        resolvedWorkers threads aff cpu = 1)
    ∧ ((threads = none ∨ threads = some 0) →
        1 ≤ resolvedWorkers threads aff cpu) := by
  refine ⟨?_, ?_, ?_, ?_, ?_⟩
  · intro t ht ht0
    subst ht
    simp [resolvedWorkers, pyOrInt, ht0]
  · rintro (ht | ht) a ha ha0 <;> subst ht <;> subst ha <;>
      simp [resolvedWorkers, pyOrInt, num_system_cpus, pyOrNatOpt, Nat.pos_iff_ne_zero.mp ha0]
  · rintro (ht | ht) (hA | hA) c hc hc0 <;> subst ht <;> subst hA <;> subst hc <;>
      simp [resolvedWorkers, pyOrInt, num_system_cpus, pyOrNatOpt, Nat.pos_iff_ne_zero.mp hc0]
  · rintro (ht | ht) (hA | hA) (hc | hc) <;> subst ht <;> subst hA <;> subst hc <;>
      simp [resolvedWorkers, pyOrInt, num_system_cpus, pyOrNatOpt]
  · rintro (ht | ht) <;> subst ht <;>
      exact one_le_pyOrInt_natOpt (num_system_cpus aff cpu)

/-- Witness for the amended C2 at concrete inputs: an unset thread count
with 4 CPUs detected resolves to 4. -/
theorem c2_amended_worker_resolution_witness :
    ((none : Option Int) = none ∨ (none : Option Int) = some 0)
    ∧ (some 4 : Option Nat) = some 4 ∧ 0 < 4
    ∧ resolvedWorkers none (some 4) (some 8) = Int.ofNat 4 :=
  ⟨Or.inl rfl, rfl, by decide,
    (c2_amended_worker_resolution none (some 4) (some 8)).2.1
      (Or.inl rfl) 4 rfl (by decide)⟩

/-- C8 counterexample: with `maxrank = 45` (outside `[0, 30]`) the command
performs no validation — the indexing phases are started with the
out-of-domain bound and the run returns exit code 0, not a non-zero
outcome. -/
theorem c8_counterexample :
    (UpdateIndex.run ⟨false, false, 0, 45, none⟩ (some 1) (some 1)).2 = 0
    ∧ Effect.index_boundaries 0 45
        ∈ (UpdateIndex.run ⟨false, false, 0, 45, none⟩ (some 1) (some 1)).1
    ∧ Effect.index_by_rank 0 45
        ∈ (UpdateIndex.run ⟨false, false, 0, 45, none⟩ (some 1) (some 1)).1 := by
  decide

/-- C8 amended: the command layer performs no rank-bound validation — every
invocation returns exit code 0, and each enabled indexing phase is invoked
with the caller-supplied bounds unchanged, whether or not they lie in
`[0, 30]`. -/
theorem c8_amended_no_rank_validation (args : IndexArgs)
    (affinity cpu_count : Option Nat) :
    (UpdateIndex.run args affinity cpu_count).2 = 0
    ∧ (args.no_boundaries = false →
        Effect.index_boundaries args.minrank args.maxrank
          ∈ (UpdateIndex.run args affinity cpu_count).1)
    ∧ (args.boundaries_only = false →
        Effect.index_by_rank args.minrank args.maxrank
          ∈ (UpdateIndex.run args affinity cpu_count).1) := by
  obtain ⟨bo, nb, mn, mx, th⟩ := args
  refine ⟨rfl, ?_, ?_⟩ <;> intro h <;> subst h <;> simp [UpdateIndex.run]

/-- Witness for the amended C8 at a concrete out-of-domain invocation. -/
theorem c8_amended_no_rank_validation_witness :
    (UpdateIndex.run ⟨false, false, -7, 45, none⟩ (some 2) (some 2)).2 = 0
    ∧ Effect.index_boundaries (-7) 45
        ∈ (UpdateIndex.run ⟨false, false, -7, 45, none⟩ (some 2) (some 2)).1 :=
  ⟨(c8_amended_no_rank_validation ⟨false, false, -7, 45, none⟩ (some 2) (some 2)).1,
    (c8_amended_no_rank_validation ⟨false, false, -7, 45, none⟩ (some 2) (some 2)).2.1 rfl⟩

/-- C1 counterexample: with both phases enabled over ranks `[0, 1]`, the unit
trace is boundary rank 0, boundary rank 1, regular rank 0, regular rank 1 —
the boundary unit at rank 1 precedes the regular unit at rank 0, so the
trace is not in the claimed per-rank interleaved order. -/
theorem c1_counterexample :
    bothPhases ⟨false, false, 0, 1, none⟩
    ∧ invocationUnits ⟨false, false, 0, 1, none⟩ (some 1) (some 1)
        = [(Phase.boundary, 0), (Phase.boundary, 1),
           (Phase.regular, 0), (Phase.regular, 1)]
    ∧ ¬ (invocationUnits ⟨false, false, 0, 1, none⟩ (some 1) (some 1)).Pairwise unitLE := by
  refine ⟨⟨rfl, rfl⟩, by decide, by decide⟩

/-- C1 amended: with both phases enabled the engine runs two full passes —
the complete boundary pass over the rank range, then the complete regular
pass — so every boundary unit (at every rank) precedes every regular unit,
and within each pass ranks strictly ascend; in particular all boundary
records at a rank complete before any regular record at that same rank, but
the phases are not interleaved per rank. -/
theorem c1_amended_two_full_passes (args : IndexArgs)
    (affinity cpu_count : Option Nat)
    (hnb : args.no_boundaries = false) (hbo : args.boundaries_only = false) :
    invocationUnits args affinity cpu_count
      = index_boundaries_units args.minrank args.maxrank
        ++ index_by_rank_units args.minrank args.maxrank
    ∧ (∀ u ∈ index_boundaries_units args.minrank args.maxrank,
        u.1 = Phase.boundary)
    ∧ (∀ u ∈ index_by_rank_units args.minrank args.maxrank,
        u.1 = Phase.regular)
    ∧ (index_boundaries_units args.minrank args.maxrank).Pairwise
        (fun u v => u.2 < v.2)
    ∧ (index_by_rank_units args.minrank args.maxrank).Pairwise
        (fun u v => u.2 < v.2) := by
  refine ⟨?_, ?_, ?_, units_pairwise_lt _ _ _, units_pairwise_lt _ _ _⟩
  · simp [invocationUnits, UpdateIndex.run, effectUnits, hnb, hbo]
  · intro u hu
    rw [index_boundaries_units, List.mem_map] at hu
    obtain ⟨r, _, hr⟩ := hu
    rw [← hr]
  · intro u hu
    rw [index_by_rank_units, List.mem_map] at hu
    obtain ⟨r, _, hr⟩ := hu
    rw [← hr]

/-- Witness for the amended C1 at a concrete invocation over ranks
`[0, 1]`. -/
theorem c1_amended_two_full_passes_witness :
    invocationUnits ⟨false, false, 0, 1, none⟩ (some 1) (some 1)
      = index_boundaries_units 0 1 ++ index_by_rank_units 0 1
    ∧ (∀ u ∈ index_boundaries_units 0 1, u.1 = Phase.boundary)
    ∧ (∀ u ∈ index_by_rank_units 0 1, u.1 = Phase.regular)
    ∧ (index_boundaries_units 0 1).Pairwise (fun u v => u.2 < v.2)
    ∧ (index_by_rank_units 0 1).Pairwise (fun u v => u.2 < v.2) :=
  c1_amended_two_full_passes ⟨false, false, 0, 1, none⟩ (some 1) (some 1) rfl rfl

/-- One regular-phase step is idempotent on a single record. -/
theorem indexStep_idem (lo hi : Int) (r : PlaceRecord) :
    indexStep lo hi (indexStep lo hi r) = indexStep lo hi r := by
  unfold indexStep
  by_cases h : (matchesRegular lo hi r && !r.indexed) = true
  · rw [if_pos h]
    simp [matchesRegular]
  · rw [if_neg h, if_neg h]

/-- After one regular-phase step a record is never claimable again. -/
theorem indexStep_not_claimable (lo hi : Int) (r : PlaceRecord) :
    (matchesRegular lo hi (indexStep lo hi r)
      && !(indexStep lo hi r).indexed) = false := by
  unfold indexStep
  by_cases h : (matchesRegular lo hi r && !r.indexed) = true
  · rw [if_pos h]
    simp
  · rw [if_neg h]
    simp_all

/-- C3: over one full scheduler pass for a `(phase, rank)`, the batches the
Claim Queue issues across all workers form a partition of the un-indexed
record set: concatenated they give back exactly the unclaimed pool, no
identifier appears in two batches (the batches are pairwise disjoint and
individually duplicate-free), and every unclaimed identifier appears in some
batch. -/
theorem c3_claim_queue_partition (ns : List Nat) (unclaimed : List Nat)
    (hnd : unclaimed.Nodup) (hdrain : unclaimed.length ≤ ns.sum) :
    (issuedBatches ns unclaimed).flatten = unclaimed
    ∧ (issuedBatches ns unclaimed).Pairwise List.Disjoint
    ∧ (∀ b ∈ issuedBatches ns unclaimed, b.Nodup)
    ∧ (∀ x ∈ unclaimed, ∃ b ∈ issuedBatches ns unclaimed, x ∈ b) := by
  have hflat : (issuedBatches ns unclaimed).flatten = unclaimed := by
    rw [issuedBatches_flatten]
    exact List.take_of_length_le hdrain
  have hnodup : (issuedBatches ns unclaimed).flatten.Nodup := by
    rw [hflat]; exact hnd
  rw [List.nodup_flatten] at hnodup
  refine ⟨hflat, hnodup.2, hnodup.1, ?_⟩
  intro x hx
  rw [← hflat, List.mem_flatten] at hx
  obtain ⟨b, hb, hxb⟩ := hx
  exact ⟨b, hb, hxb⟩

/-- Witness for C3: a drained pass over three records with batch size 2. -/
theorem c3_claim_queue_partition_witness :
    ([5, 9, 3] : List Nat).Nodup
    ∧ ([5, 9, 3] : List Nat).length ≤ ([2, 2] : List Nat).sum
    ∧ (issuedBatches [2, 2] [5, 9, 3]).flatten = [5, 9, 3] :=
  ⟨by decide, by decide,
    (c3_claim_queue_partition [2, 2] [5, 9, 3] (by decide) (by decide)).1⟩

/-- C5: a run interrupted after `k` fully completed units leaves the durable
marker at the last fully completed unit (its log is exactly the first `k`
units of the plan); on restart the scheduler resumes at the next unfinished
unit — the resumed portion is exactly the rest of the plan, shares no unit
with the completed prefix (no reprocessing), and together with it covers the
whole plan (no skipping). -/
theorem c5_status_tracker_resumption {U : Type} [DecidableEq U]
    (plan : List U) (k : Nat) (hnd : plan.Nodup) (hk : k ≤ plan.length) :
    (runInterrupted plan k ⟨none, []⟩).processed = plan.take k
    ∧ (runInterrupted plan k ⟨none, []⟩).marker = (plan.take k).getLast?
    ∧ unitsAfterMarker plan (runInterrupted plan k ⟨none, []⟩).marker
        = plan.drop k
    ∧ List.Disjoint (runInterrupted plan k ⟨none, []⟩).processed
        (unitsAfterMarker plan (runInterrupted plan k ⟨none, []⟩).marker)
    ∧ (runInterrupted plan k ⟨none, []⟩).processed
        ++ unitsAfterMarker plan (runInterrupted plan k ⟨none, []⟩).marker
        = plan := by
  have hproc : (runInterrupted plan k ⟨none, []⟩).processed = plan.take k := by
    unfold runInterrupted
    rw [runUnits_processed]
    simp
  have hmark : (runInterrupted plan k ⟨none, []⟩).marker
      = (plan.take k).getLast? := by
    unfold runInterrupted
    rw [runUnits_marker]
    cases h : (plan.take k).getLast? <;> rfl
  have hafter : unitsAfterMarker plan (runInterrupted plan k ⟨none, []⟩).marker
      = plan.drop k := by
    rw [hmark]
    exact unitsAfterMarker_take plan k hnd
  refine ⟨hproc, hmark, hafter, ?_, ?_⟩
  · rw [hproc, hafter]
    exact List.disjoint_take_drop hnd (le_refl k)
  · rw [hproc, hafter]
    exact List.take_append_drop k plan

/-- Witness for C5: a three-unit plan interrupted after two units. -/
theorem c5_status_tracker_resumption_witness :
    ([(Phase.boundary, 4), (Phase.regular, 4), (Phase.boundary, 5)]
        : List (Phase × Int)).Nodup
    ∧ 2 ≤ ([(Phase.boundary, 4), (Phase.regular, 4), (Phase.boundary, 5)]
        : List (Phase × Int)).length
    ∧ (runInterrupted
        [(Phase.boundary, 4), (Phase.regular, 4), (Phase.boundary, 5)] 2
        ⟨none, []⟩).processed = [(Phase.boundary, 4), (Phase.regular, 4)] :=
  ⟨by decide, by decide,
    (c5_status_tracker_resumption
      [(Phase.boundary, 4), (Phase.regular, 4), (Phase.boundary, 5)] 2
      (by decide) (by decide)).1⟩

/-- C6: running `indexByRank` twice over the same range with no intervening
data change is idempotent — the database state after the second run equals
the state after the first, and the second run claims zero records. -/
theorem c6_index_by_rank_idempotent (lo hi : Int) (db : List PlaceRecord) :
    Engine.index_by_rank lo hi (Engine.index_by_rank lo hi db)
      = Engine.index_by_rank lo hi db
    ∧ Engine.claims lo hi (Engine.index_by_rank lo hi db) = [] := by
  constructor
  · unfold Engine.index_by_rank
    rw [List.map_map]
    exact List.map_congr_left (fun r _ => indexStep_idem lo hi r)
  · unfold Engine.claims
    have hfil : (Engine.index_by_rank lo hi db).filter
        (fun r => matchesRegular lo hi r && !r.indexed) = [] := by
      rw [List.filter_eq_nil_iff]
      intro a ha
      unfold Engine.index_by_rank at ha
      rw [List.mem_map] at ha
      obtain ⟨r, _, hr⟩ := ha
      subst hr
      rw [indexStep_not_claimable]
      exact Bool.false_ne_true
    rw [hfil]
    rfl

/-- Unfolding `recordCompletion` on an empty stored marker. -/
theorem recordCompletion_none (u : Phase × Int) :
    recordCompletion none u = some u := rfl

/-- Unfolding `recordCompletion` on a stored marker. -/
theorem recordCompletion_some (v u : Phase × Int) :
    recordCompletion (some v) u
      = if markerValue u ≤ markerValue v then some v else some u := rfl

/-- C7: the Status Tracker's `recordCompletion` is idempotent and monotone —
writing a value equal to or lower than the stored `(phase, rank)` leaves the
stored marker unchanged, writing twice equals writing once, and over any
sequence of writes `lastCompleted` never decreases. -/
theorem c7_recordCompletion_monotone_idempotent :
    (∀ v u : Phase × Int, markerValue u ≤ markerValue v →
        recordCompletion (some v) u = some v)
    ∧ (∀ (s : Option (Phase × Int)) (u : Phase × Int),
        recordCompletion (recordCompletion s u) u = recordCompletion s u)
    ∧ (∀ (s : Option (Phase × Int)) (us : List (Phase × Int)),
        markerLE (lastCompleted s)
          (lastCompleted (us.foldl recordCompletion s))) := by
  refine ⟨?_, ?_, ?_⟩
  · intro v u h
    rw [recordCompletion_some, if_pos h]
  · intro s u
    cases s with
    | none =>
        rw [recordCompletion_none, recordCompletion_some, if_pos (le_refl _)]
    | some v =>
        by_cases h : markerValue u ≤ markerValue v
        · have h1 : recordCompletion (some v) u = some v := by
            rw [recordCompletion_some, if_pos h]
          rw [h1, h1]
        · have h1 : recordCompletion (some v) u = some u := by
            rw [recordCompletion_some, if_neg h]
          rw [h1, recordCompletion_some, if_pos (le_refl _)]
  · intro s us
    unfold lastCompleted
    induction us generalizing s with
    | nil => exact markerLE_refl s
    | cons u t ih =>
        show markerLE s (t.foldl recordCompletion (recordCompletion s u))
        exact markerLE_trans (markerLE_recordCompletion s u)
          (ih (recordCompletion s u))

/-- Witness for C7: writing a lower marker (boundary phase at the same rank)
onto a stored regular-phase marker is a no-op. -/
theorem c7_recordCompletion_monotone_idempotent_witness :
    markerValue (Phase.boundary, 3) ≤ markerValue (Phase.regular, 3)
    ∧ recordCompletion (some (Phase.regular, 3)) (Phase.boundary, 3)
        = some (Phase.regular, 3) :=
  ⟨by decide,
    c7_recordCompletion_monotone_idempotent.1 (Phase.regular, 3)
      (Phase.boundary, 3) (by decide)⟩
